import Mathlib

/-!
Verification of the multithreaded n-gram counter (`ngram_counter.cpp`).

The development shallowly embeds the program:

* the three character transforms `toLowerCase`, `removeNewlineAndTab`,
  `removePunctuationAndNumbers` (source lines 138-151) become functions
  `Char → Char` on Unicode scalar values; the source operates on bytes and
  every comparison in it is against an ASCII code, so `Char.toNat` matches
  the byte value on the ASCII range;
* `process_file` (source lines 153-199) becomes `tokenize`, which produces
  the list of n-gram keys of one file in emission order, and `process_file`,
  which folds them into a frequency map;
* `std::map<std::string, uint64_t>` becomes an association list sorted by
  the lexicographic order on the underlying character sequence, with
  `mapAdd` playing the role of `m[key] += c` (default-construct then add);
* the `sweep` lambda of `ngramCounter::compute` (source lines 65-124)
  becomes `localFreq` (map phase), `assignedBucket` (partitioning, lines
  76-88), `reducedFreq` (reduce over received buckets, lines 91-99) and
  `topFive` (lines 101-123);
* the dynamic work distribution (atomic `global_index`, lines 33-34 and
  68-73) is modelled by a schedule function saying which worker claimed
  each file index: every interleaving of the atomic fetch-and-add yields
  such a function, and every such function is realizable by some
  interleaving;
* the promise/future shuffle matrix is modelled twice: functionally (the
  bucket a consumer receives from a producer is exactly the bucket that
  producer computed) for the counting claims, and by an event-trace
  semantics (`Ev`, `ValidTrace`) for the temporal claims.

`std::hash<std::string>` is implementation-defined, so the hash is an
arbitrary parameter `h : String → Nat` throughout.
-/

namespace NgramCounter

/-- Source line 138-141: maps `A`-`Z` (65-90) to the corresponding lowercase
letter by adding 32; every other character is returned unchanged. -/
def toLowerCase (c : Char) : Char :=
  if 65 ≤ c.toNat ∧ c.toNat ≤ 90 then Char.ofNat (c.toNat + 32) else c

/-- Source line 143-146: maps tab (9) and newline (10) to space (32); every
other character is returned unchanged. -/
def removeNewlineAndTab (c : Char) : Char :=
  if c.toNat = 9 ∨ c.toNat = 10 then Char.ofNat 32 else c

/-- Source line 148-151: maps the ASCII ranges 33-64, 91-96 and 123-126
(punctuation and digits) to the break marker `|` (124); every other
character is returned unchanged. -/
def removePunctuationAndNumbers (c : Char) : Char :=
  if (33 ≤ c.toNat ∧ c.toNat ≤ 64) ∨ (91 ≤ c.toNat ∧ c.toNat ≤ 96) ∨
     (123 ≤ c.toNat ∧ c.toNat ≤ 126) then Char.ofNat 124 else c

/-- Source lines 160-162: the three `std::transform` passes applied in
order to the whole contents. -/
def normalizeContents (content : List Char) : List Char :=
  ((content.map toLowerCase).map removeNewlineAndTab).map removePunctuationAndNumbers

/-- Source lines 164-166: `std::sregex_token_iterator` over `[|]` with
submatch `-1` cuts the contents at every break marker.  The model also
produces a trailing empty segment when the contents end in a break marker;
the iterator in the source suppresses it, but empty segments contain no
words and are additionally skipped by the `*iter != ""` test (line 171),
so the emitted n-grams agree. -/
def splitOnBreak : List Char → List (List Char)
  | [] => [[]]
  | c :: rest =>
    if c = Char.ofNat 124 then [] :: splitOnBreak rest
    else
      match splitOnBreak rest with
      | [] => [[c]]
      | s :: ss => (c :: s) :: ss

/-- Character class of the word regex `[a-z]` (source line 175): lowercase
ASCII letters 97-122. -/
def isWordChar (c : Char) : Bool :=
  decide (97 ≤ c.toNat) && decide (c.toNat ≤ 122)

/-- Source lines 175-177: `std::sregex_token_iterator` over `[a-z]+`
extracts the maximal runs of lowercase letters of a segment.  `acc` is the
run currently being scanned. -/
def wordsAux : List Char → List Char → List (List Char)
  | [], acc => if acc = [] then [] else [acc]
  | c :: rest, acc =>
    if isWordChar c then wordsAux rest (acc ++ [c])
    else if acc = [] then wordsAux rest []
    else acc :: wordsAux rest []

/-- The word list of a segment: maximal runs of lowercase letters. -/
def wordsOf (s : List Char) : List (List Char) := wordsAux s []

/-- Source line 188: the characters of the words of an n-gram joined by
single spaces, built as the loop `current_ngram = current_ngram + " " + word`
builds it. -/
def joinChars : List (List Char) → List Char
  | [] => []
  | [w] => w
  | w :: rest => w ++ Char.ofNat 32 :: joinChars rest

/-- The n-gram key for a list of words. -/
def joinWords (ws : List (List Char)) : String :=
  String.mk (joinChars ws)

/-- Source lines 178-196: for each word position the inner loop builds the
n-gram of the word at that position and the following words, stopping after
`ngram` words or at the end of the segment (`n < ngram && iter_seq_inner !=
end_seq`), and records it only when `n == ngram`, i.e. exactly when the
position is followed by at least `n - 1` further words (for `ngram = 0` the
counter starts at 1 and the test `1 == 0` fails, so nothing is emitted). -/
def ngramsFrom (n : Nat) : List (List Char) → List String
  | [] => []
  | w :: rest =>
    (if 1 ≤ n ∧ n ≤ (w :: rest).length then [joinWords ((w :: rest).take n)] else [])
      ++ ngramsFrom n rest

/-- Source lines 153-199 up to the `local_freq` update: the list of n-gram
keys of one file, in emission order (segment order, then word order).
Empty segments are skipped by the `*iter != ""` test on line 171. -/
def tokenize (n : Nat) (content : List Char) : List String :=
  (splitOnBreak (normalizeContents content)).flatMap
    (fun seg => if seg = [] then [] else ngramsFrom n (wordsOf seg))

/-! ### Frequency maps

`std::map<std::string, uint64_t>` keyed by `operator<` on `std::string`,
which is the lexicographic order on the character sequence.  The embedding
is an association list kept sorted by that order with distinct keys. -/

/-- Lexicographic comparison of character lists, by scalar value: the order
`std::map` uses on `std::string` keys. -/
def keyLtAux : List Char → List Char → Bool
  | [], [] => false
  | [], _ :: _ => true
  | _ :: _, [] => false
  | a :: as, b :: bs => if a = b then keyLtAux as bs else decide (a.toNat < b.toNat)

/-- Strict order on map keys. -/
def keyLt (a b : String) : Bool := keyLtAux a.data b.data

/-- A frequency table: association list from n-gram to count. -/
abbrev FreqMap := List (String × Nat)

/-- Lookup with default 0, the value `operator[]` exposes for a count
(absent keys behave as count 0 for reading purposes). -/
def mapGet : FreqMap → String → Nat
  | [], _ => 0
  | (k₀, c₀) :: rest, k => if k = k₀ then c₀ else mapGet rest k

/-- The update `m[k] += c` of `std::map`: default-constructs the entry at 0
when absent (inserting at the sorted position), then adds `c`. -/
def mapAdd : FreqMap → String → Nat → FreqMap
  | [], k, c => [(k, c)]
  | (k₀, c₀) :: rest, k, c =>
    if keyLt k k₀ then (k, c) :: (k₀, c₀) :: rest
    else if k = k₀ then (k₀, c₀ + c) :: rest
    else (k₀, c₀) :: mapAdd rest k c

/-- Source lines 153-199: read a file, tokenize it, and fold
`local_freq[current_ngram]++` over the emitted n-grams. -/
def process_file (n : Nat) (content : List Char) (local_freq : FreqMap) : FreqMap :=
  (tokenize n content).foldl (fun m k => mapAdd m k 1) local_freq

/-- A well-formed `std::map`: keys strictly increasing, hence distinct. -/
def SortedKeys (m : FreqMap) : Prop :=
  List.Pairwise (fun p q : String × Nat => keyLt p.1 q.1 = true) m

/-- All stored counts are positive. -/
def PosEntries (m : FreqMap) : Prop := ∀ p ∈ m, 1 ≤ p.2

/-! ### The sweep (source lines 65-124)

Worker `w` repeatedly claims the file at the old value of the atomic
`global_index` (lines 68-73).  An execution of the fetch-and-add loop is
abstracted by the function `sched` recording, for each file index, the
worker that claimed it; the files a worker processes are then the files at
its claimed indices, in increasing index order (the counter only grows). -/

/-- Files claimed by worker `w` under the schedule `sched`. -/
def workerFiles (files : List (List Char)) (sched : Nat → Nat) (w : Nat) : List (List Char) :=
  ((files.enum).filter (fun p => sched p.1 == w)).map Prod.snd

/-- Source lines 68-73: the `local_freq` table of worker `w` at the end of
its map phase. -/
def localFreq (n : Nat) (files : List (List Char)) (sched : Nat → Nat) (w : Nat) : FreqMap :=
  (workerFiles files sched w).foldl (fun m f => process_file n f m) []

/-- Source lines 76-83: bucket `i` of the `assignment_matrix` built from a
local table: the entries whose key hashes to worker `i`, in table order. -/
def assignedBucket (h : String → Nat) (T : Nat) (m : FreqMap) (i : Nat) :
    List (String × Nat) :=
  m.filter (fun p => h p.1 % T == i)

/-- Source lines 95-98: `reduced_freq[ngram] += cnt` over a received
update vector. -/
def addAll (m : FreqMap) (l : List (String × Nat)) : FreqMap :=
  l.foldl (fun acc p => mapAdd acc p.1 p.2) m

/-- Source lines 91-99: the `reduced_freq` table of worker `j`: for each
producer `t` in order `0, …, T-1`, the bucket `j` of producer `t`'s local
table is received through the shuffle matrix and folded in.  The value
carried by `shuffle_matrix[j][t]` is exactly `assignment_matrix.at(j)` of
the `sweep` call with `thread_id = t` (line 87 writes bucket `i` of worker
`t` to promise `(i, t)`, line 94 reads future `(j, t)`). -/
def reducedFreq (n : Nat) (h : String → Nat) (T : Nat) (files : List (List Char))
    (sched : Nat → Nat) (j : Nat) : FreqMap :=
  (List.range T).foldl
    (fun acc t => addAll acc (assignedBucket h T (localFreq n files sched t) j)) []

/-- Naive single-threaded reference: tokenize every file and count all
n-grams in one table. -/
def referenceTable (n : Nat) (files : List (List Char)) : FreqMap :=
  files.foldl (fun m f => process_file n f m) []

/-- The concatenated token stream of a list of files. -/
def allTokens (n : Nat) (files : List (List Char)) : List String :=
  files.flatMap (tokenize n)

/-- Token stream of the files worker `w` processes. -/
def workerTokens (n : Nat) (files : List (List Char)) (sched : Nat → Nat) (w : Nat) :
    List String :=
  (workerFiles files sched w).flatMap (tokenize n)

/-- Total count carried by the entries of an update list for key `k`
(an update list may in principle repeat a key, so this sums). -/
def entrySum (l : List (String × Nat)) (k : String) : Nat :=
  (l.map (fun p => if p.1 = k then p.2 else 0)).sum

/-! ### Top-five selection and reporting (source lines 101-123)

`top_five` is a vector of 5 value-initialized pairs `("", 0)`.
`std::partial_sort_copy` copies the `min(5, size)` entries of
`reduced_freq` that are greatest for the comparator `l.second > r.second`
into the front of the vector, sorted by that comparator; the remaining
slots keep their initial value.  The selection is modelled by a full sort
that is descending on counts (insertion keeps earlier table entries before
later entries with the same count, one conforming resolution of the
comparator's ties, which `partial_sort_copy` leaves unspecified). -/

/-- Insert an entry into a list that is descending on counts, after all
entries with a count at least as large. -/
def insertByCount (p : String × Nat) : List (String × Nat) → List (String × Nat)
  | [] => [p]
  | q :: rest => if q.2 < p.2 then p :: q :: rest else q :: insertByCount p rest

/-- Sort a table by descending count. -/
def sortByCountDesc (l : List (String × Nat)) : List (String × Nat) :=
  l.foldr insertByCount []

/-- The 5 reported slots of a worker: the up-to-5 greatest-count entries in
descending count order, the remaining slots keeping the value-initialized
pair `("", 0)`. -/
def topFive (m : FreqMap) : List (String × Nat) :=
  (sortByCountDesc m).take 5 ++ List.replicate (5 - min 5 m.length) ("", 0)

/-- Source lines 113-123: a slot with count 0 is printed as the placeholder
line, any other slot as `ngram: count` (with the 7-space indent). -/
def renderSlot (p : String × Nat) : String :=
  if p.2 = 0 then "       ..." else "       " ++ p.1 ++ ": " ++ toString p.2

/-! ### The work cursor (source lines 33-34 and 68-73)

`global_index` is an atomic counter; `global_index++` is an atomic
fetch-and-add, so the concurrent claims are linearized into a sequence of
`fetchAdd` steps on a single `Nat` state. -/

/-- One atomic `global_index++`: returns the old value, increments the
state. -/
def fetchAdd (s : Nat) : Nat × Nat := (s, s + 1)

/-- The values returned by `m` successive claims starting from state `s`. -/
def claimResults (s : Nat) : Nat → List Nat
  | 0 => []
  | m + 1 => (fetchAdd s).1 :: claimResults (fetchAdd s).2 m

/-- Source line 70: `while ((file_index = global_index++) < files_to_sweep.size())`
from the point of view of one worker: given the stream of values the
fetch-and-add hands this worker, it processes a value if it is in range and
stops claiming at the first out-of-range value. -/
def workerLoop (len : Nat) : List Nat → List Nat
  | [] => []
  | v :: rest => if v < len then v :: workerLoop len rest else []

/-! ### Event traces of the shuffle (source lines 65-124)

For the temporal claims the run of `compute` is modelled as a linearized
trace of the observable synchronization events of the `sweep` threads:

* `Ev.mapEnd w` — worker `w` finishes its map loop (lines 68-73) and the
  partitioning (lines 76-83);
* `Ev.write i j` — worker `j` performs `shuffle_matrix.at(i).at(j).set_value`
  (line 87), i.e. writes the handoff slot with producer `j` and consumer `i`;
* `Ev.read i t`  — worker `i`'s `shuffle_matrix_fut.at(i).at(t).get()`
  (line 94) returns;
* `Ev.reduceEnd w` — worker `w` finishes its reduce loop (lines 91-99).

A trace is valid when each worker's own events form its program in program
order, only the `T` workers act, and a future's `get` returns only after
the corresponding promise was written. -/

inductive Ev where
  | mapEnd : Nat → Ev
  | write : Nat → Nat → Ev
  | read : Nat → Nat → Ev
  | reduceEnd : Nat → Ev
  deriving DecidableEq

/-- The worker performing an event: promise `(i, j)` is set by worker `j`
(line 87), future `(i, t)` is read by worker `i` (line 94). -/
def owner : Ev → Nat
  | Ev.mapEnd w => w
  | Ev.write _ j => j
  | Ev.read i _ => i
  | Ev.reduceEnd w => w

/-- The event sequence of one `sweep` call with `thread_id = w` and
`num_threads = T`: map phase, then the write loop over `i = 0, …, T-1`
(line 85-88), then the read-and-accumulate loop over `t = 0, …, T-1`
(lines 92-99), then reduce completion. -/
def workerProgram (T w : Nat) : List Ev :=
  Ev.mapEnd w :: ((List.range T).map (fun i => Ev.write i w) ++
    ((List.range T).map (fun t => Ev.read w t) ++ [Ev.reduceEnd w]))

/-- Event `a` occurs strictly before event `b` in the trace (both are
expected to occur; `indexOf` positions). -/
abbrev before (tr : List Ev) (a b : Ev) : Prop :=
  tr.indexOf a < tr.indexOf b

/-- A complete linearized execution of `compute` with `T` workers: the
events of each worker `w < T` are exactly its program, in order; no other
worker acts; and every future is read only after the matching promise was
written (`std::future::get` blocks until `set_value`). -/
abbrev ValidTrace (T : Nat) (tr : List Ev) : Prop :=
  (∀ w < T, tr.filter (fun e => owner e == w) = workerProgram T w) ∧
  (∀ e ∈ tr, owner e < T) ∧
  (∀ i < T, ∀ t < T, before tr (Ev.write i t) (Ev.read i t))

/-- A concrete complete trace of a two-worker run in which worker 0 claims
all the work and races ahead: it performs both of its writes, reads its own
slot and, only after worker 1 catches up, reads the remaining slot. -/
def raceTrace : List Ev :=
  [Ev.mapEnd 0, Ev.write 0 0, Ev.write 1 0, Ev.read 0 0,
   Ev.mapEnd 1, Ev.write 0 1, Ev.write 1 1, Ev.read 0 1, Ev.reduceEnd 0,
   Ev.read 1 0, Ev.read 1 1, Ev.reduceEnd 1]

/-! ### Spec-side tokenizer for the refinement claim -/

/-- Modelled from the spec, §4.1 (f): "for each word position, form the
n-gram consisting of that word followed by the next `n-1` words in the same
segment, joined by single spaces; if fewer than `n-1` words remain before
the segment ends, no n-gram is emitted for that starting position". -/
def spec_segment_ngrams (n : Nat) (ws : List (List Char)) : List String :=
  (List.range ws.length).filterMap fun p =>
    if p + n ≤ ws.length then some (joinWords ((ws.drop p).take n)) else none

/-- Modelled from the spec, §4.1 (d)-(f): normalize, split on the break
marker into independent segments, extract the maximal runs of lowercase
letters of each segment as its words, and emit one n-gram per position
with enough following words, in segment order then word order. -/
def spec_tokenize (n : Nat) (content : List Char) : List String :=
  (splitOnBreak (normalizeContents content)).flatMap
    (fun seg => spec_segment_ngrams n (wordsOf seg))

/-! ### Concrete inputs used by the claims -/

/-- The tokenization example input of the spec (§8). -/
def exInput : List Char := "Hello, World! Hello world.".data

/-- The two files of the end-to-end scenario of the spec (§8). -/
def exFiles : List (List Char) := ["a b a b".data, "a b".data]

theorem char_eq_of_toNat_eq {a b : Char} (h : a.toNat = b.toNat) : a = b :=
  Char.ext (UInt32.toNat.inj h)

theorem keyLtAux_irrefl : ∀ l : List Char, keyLtAux l l = false
  | [] => rfl
  | c :: rest => by simp [keyLtAux, keyLtAux_irrefl rest]

theorem keyLtAux_trans : ∀ {a b c : List Char},
    keyLtAux a b = true → keyLtAux b c = true → keyLtAux a c = true
  | [], [], _, h₁, _ => by simp [keyLtAux] at h₁
  | [], _ :: _, [], _, h₂ => by simp [keyLtAux] at h₂
  | [], _ :: _, _ :: _, _, _ => rfl
  | _ :: _, [], _, h₁, _ => by simp [keyLtAux] at h₁
  | _ :: _, _ :: _, [], _, h₂ => by simp [keyLtAux] at h₂
  | x :: as, y :: bs, z :: cs, h₁, h₂ => by
    by_cases hxy : x = y <;> by_cases hyz : y = z
    · subst hxy; subst hyz
      simp only [keyLtAux, if_pos rfl] at h₁ h₂ ⊢
      exact keyLtAux_trans h₁ h₂
    · subst hxy
      simp only [keyLtAux, if_pos rfl, if_neg hyz] at h₁ h₂ ⊢
      exact h₂
    · subst hyz
      simp only [keyLtAux, if_pos rfl, if_neg hxy] at h₁ h₂ ⊢
      exact h₁
    · simp only [keyLtAux, if_neg hxy, if_neg hyz, decide_eq_true_eq] at h₁ h₂
      have hlt : x.toNat < z.toNat := Nat.lt_trans h₁ h₂
      have hxz : x ≠ z := fun he => Nat.lt_irrefl _ (he ▸ hlt)
      simp [keyLtAux, if_neg hxz, hlt]

theorem keyLtAux_conn : ∀ {a b : List Char},
    keyLtAux a b = false → keyLtAux b a = false → a = b
  | [], [], _, _ => rfl
  | [], _ :: _, h₁, _ => by simp [keyLtAux] at h₁
  | _ :: _, [], _, h₂ => by simp [keyLtAux] at h₂
  | x :: as, y :: bs, h₁, h₂ => by
    by_cases hxy : x = y
    · subst hxy
      simp only [keyLtAux, if_pos rfl] at h₁ h₂
      rw [keyLtAux_conn h₁ h₂]
    · simp only [keyLtAux, if_neg hxy, if_neg (Ne.symm hxy), decide_eq_true_eq,
        decide_eq_false_iff_not, Nat.not_lt] at h₁ h₂
      exact absurd (char_eq_of_toNat_eq (Nat.le_antisymm h₂ h₁)) hxy

theorem string_eq_of_data_eq {a b : String} (h : a.data = b.data) : a = b := by
  cases a; cases b; exact congrArg String.mk h

theorem keyLt_irrefl (a : String) : keyLt a a = false := keyLtAux_irrefl a.data

theorem keyLt_trans {a b c : String} (h₁ : keyLt a b = true) (h₂ : keyLt b c = true) :
    keyLt a c = true := keyLtAux_trans h₁ h₂

theorem keyLt_conn {a b : String} (h₁ : keyLt a b = false) (h₂ : keyLt b a = false) :
    a = b := string_eq_of_data_eq (keyLtAux_conn h₁ h₂)

theorem keyLt_ne {a b : String} (h : keyLt a b = true) : a ≠ b := by
  intro he; subst he; rw [keyLt_irrefl] at h; exact Bool.noConfusion h

theorem keyLt_total {a b : String} (h₁ : keyLt a b = false) (h₂ : a ≠ b) :
    keyLt b a = true := by
  cases hba : keyLt b a
  · exact absurd (keyLt_conn h₁ hba) h₂
  · rfl

theorem mapGet_eq_zero_of_lt {m : FreqMap} {k : String}
    (h : ∀ q ∈ m, keyLt k q.1 = true) : mapGet m k = 0 := by
  induction m with
  | nil => rfl
  | cons p rest ih =>
    have hne : k ≠ p.1 := keyLt_ne (h p (List.mem_cons_self p rest))
    simpa [mapGet, hne] using ih (fun q hq => h q (List.mem_cons_of_mem p hq))

theorem mem_keys_mapAdd {m : FreqMap} {k : String} {c : Nat} :
    ∀ p ∈ mapAdd m k c, p.1 = k ∨ p.1 ∈ m.map Prod.fst := by
  induction m with
  | nil =>
    intro p hp
    rw [show mapAdd [] k c = [(k, c)] from rfl, List.mem_singleton] at hp
    left; rw [hp]
  | cons q rest ih =>
    obtain ⟨k₀, c₀⟩ := q
    intro p hp
    simp only [mapAdd] at hp
    by_cases h₁ : keyLt k k₀ = true
    · rw [if_pos h₁] at hp
      rcases List.mem_cons.mp hp with h | h
      · left; rw [h]
      · rcases List.mem_cons.mp h with h' | h'
        · right; rw [h']; exact List.mem_map_of_mem Prod.fst (List.mem_cons_self _ _)
        · right; exact List.mem_map_of_mem Prod.fst (List.mem_cons_of_mem _ h')
    · rw [if_neg h₁] at hp
      by_cases h₂ : k = k₀
      · rw [if_pos h₂] at hp
        rcases List.mem_cons.mp hp with h | h
        · left; rw [h, ← h₂]
        · right; exact List.mem_map_of_mem Prod.fst (List.mem_cons_of_mem _ h)
      · rw [if_neg h₂] at hp
        rcases List.mem_cons.mp hp with h | h
        · right; rw [h]; exact List.mem_map_of_mem Prod.fst (List.mem_cons_self _ _)
        · rcases ih p h with h' | h'
          · left; exact h'
          · right
            rcases List.mem_map.mp h' with ⟨q', hq', he⟩
            exact he ▸ List.mem_map_of_mem Prod.fst (List.mem_cons_of_mem _ hq')

theorem mapAdd_sorted {m : FreqMap} {k : String} {c : Nat} (hs : SortedKeys m) :
    SortedKeys (mapAdd m k c) := by
  induction m with
  | nil => simp [mapAdd, SortedKeys]
  | cons q rest ih =>
    obtain ⟨k₀, c₀⟩ := q
    rcases List.pairwise_cons.mp hs with ⟨hhead, htail⟩
    simp only [mapAdd]
    by_cases h₁ : keyLt k k₀ = true
    · rw [if_pos h₁]
      refine List.pairwise_cons.mpr ⟨?_, hs⟩
      intro p hp
      rcases List.mem_cons.mp hp with h | h
      · rw [h]; exact h₁
      · exact keyLt_trans h₁ (hhead p h)
    · rw [if_neg h₁]
      by_cases h₂ : k = k₀
      · rw [if_pos h₂]; exact List.pairwise_cons.mpr ⟨hhead, htail⟩
      · rw [if_neg h₂]
        refine List.pairwise_cons.mpr ⟨?_, ih htail⟩
        intro p hp
        rcases mem_keys_mapAdd p hp with h | h
        · rw [h]
          exact keyLt_total (Bool.eq_false_iff.mpr h₁) h₂
        · rcases List.mem_map.mp h with ⟨q', hq', he⟩
          exact he ▸ hhead q' hq'

theorem mapGet_mapAdd {m : FreqMap} (hs : SortedKeys m) (k k' : String) (c : Nat) :
    mapGet (mapAdd m k c) k' = mapGet m k' + (if k' = k then c else 0) := by
  induction m with
  | nil => by_cases h : k' = k <;> simp [mapAdd, mapGet, h]
  | cons q rest ih =>
    obtain ⟨k₀, c₀⟩ := q
    rcases List.pairwise_cons.mp hs with ⟨hhead, htail⟩
    simp only [mapAdd]
    by_cases h₁ : keyLt k k₀ = true
    · rw [if_pos h₁]
      by_cases h : k' = k
      · subst h
        have hz : mapGet ((k₀, c₀) :: rest) k' = 0 := by
          refine mapGet_eq_zero_of_lt ?_
          intro p hp
          rcases List.mem_cons.mp hp with h | h
          · rw [h]; exact h₁
          · exact keyLt_trans h₁ (hhead p h)
        rw [hz]
        simp [mapGet]
      · simp [mapGet, h]
    · rw [if_neg h₁]
      by_cases h₂ : k = k₀
      · rw [if_pos h₂]
        by_cases h : k' = k₀
        · have hk : k' = k := h.trans h₂.symm
          simp only [mapGet, if_pos h, if_pos hk]
        · have hk : ¬ k' = k := fun he => h (he.trans h₂)
          simp only [mapGet, if_neg h, if_neg hk, Nat.add_zero]
      · rw [if_neg h₂]
        by_cases h : k' = k₀
        · have hk : ¬ k' = k := fun he => h₂ (he ▸ h)
          simp only [mapGet, if_pos h, if_neg hk, Nat.add_zero]
        · simp only [mapGet, if_neg h, ih htail]

theorem mapAdd_pos {m : FreqMap} {k : String} {c : Nat} (hm : PosEntries m)
    (hc : 1 ≤ c) : PosEntries (mapAdd m k c) := by
  induction m with
  | nil =>
    intro p hp
    rw [show mapAdd [] k c = [(k, c)] from rfl, List.mem_singleton] at hp
    rw [hp]; exact hc
  | cons q rest ih =>
    obtain ⟨k₀, c₀⟩ := q
    intro p hp
    simp only [mapAdd] at hp
    by_cases h₁ : keyLt k k₀ = true
    · rw [if_pos h₁] at hp
      rcases List.mem_cons.mp hp with h | h
      · rw [h]; exact hc
      · exact hm p h
    · rw [if_neg h₁] at hp
      by_cases h₂ : k = k₀
      · rw [if_pos h₂] at hp
        rcases List.mem_cons.mp hp with h | h
        · have h0 := hm (k₀, c₀) (List.mem_cons_self _ rest)
          rw [h]; exact Nat.le_trans h0 (Nat.le_add_right _ _)
        · exact hm p (List.mem_cons_of_mem _ h)
      · rw [if_neg h₂] at hp
        rcases List.mem_cons.mp hp with h | h
        · rw [h]; exact hm (k₀, c₀) (List.mem_cons_self _ rest)
        · exact ih (fun p' hp' => hm p' (List.mem_cons_of_mem _ hp')) p h

theorem entrySum_cons (p : String × Nat) (l : List (String × Nat)) (k : String) :
    entrySum (p :: l) k = (if p.1 = k then p.2 else 0) + entrySum l k := by
  simp [entrySum]

theorem entrySum_eq_zero_of_ne {l : List (String × Nat)} {k : String}
    (h : ∀ q ∈ l, q.1 ≠ k) : entrySum l k = 0 := by
  induction l with
  | nil => rfl
  | cons p rest ih =>
    rw [entrySum_cons, if_neg (h p (List.mem_cons_self p rest)),
      ih (fun q hq => h q (List.mem_cons_of_mem p hq))]

theorem entrySum_eq_mapGet {m : FreqMap} (hs : SortedKeys m) (k : String) :
    entrySum m k = mapGet m k := by
  induction m with
  | nil => rfl
  | cons p rest ih =>
    obtain ⟨k₀, c₀⟩ := p
    rcases List.pairwise_cons.mp hs with ⟨hhead, htail⟩
    rw [entrySum_cons]
    by_cases h : k = k₀
    · subst h
      have hz : entrySum rest k = 0 := by
        refine entrySum_eq_zero_of_ne ?_
        intro q hq
        exact fun he => keyLt_ne (hhead q hq) (by rw [he])
      simp [mapGet, hz]
    · have h' : ¬ (k₀ = k) := fun he => h he.symm
      simp [mapGet, h, h', ih htail]

theorem entrySum_assignedBucket (h : String → Nat) (T : Nat) (m : FreqMap) (i : Nat)
    (k : String) :
    entrySum (assignedBucket h T m i) k = if h k % T = i then entrySum m k else 0 := by
  induction m with
  | nil => by_cases hc : h k % T = i <;> simp [assignedBucket, entrySum, hc]
  | cons p rest ih =>
    simp only [assignedBucket] at ih ⊢
    by_cases hk : p.1 = k
    · by_cases hc : h k % T = i
      · have hfil : List.filter (fun q => h q.1 % T == i) (p :: rest)
            = p :: List.filter (fun q => h q.1 % T == i) rest :=
          List.filter_cons_of_pos (by rw [hk]; exact beq_iff_eq.mpr hc)
        rw [hfil]
        simp [entrySum_cons, ih, hk, hc]
      · have hfil : List.filter (fun q => h q.1 % T == i) (p :: rest)
            = List.filter (fun q => h q.1 % T == i) rest :=
          List.filter_cons_of_neg (by rw [hk]; simp [hc])
        rw [hfil]
        simp [ih, hc]
    · by_cases hb : (h p.1 % T == i) = true
      · have hfil : List.filter (fun q => h q.1 % T == i) (p :: rest)
            = p :: List.filter (fun q => h q.1 % T == i) rest :=
          List.filter_cons_of_pos hb
        rw [hfil]
        by_cases hc : h k % T = i <;> simp [entrySum_cons, ih, hk, hc]
      · have hfil : List.filter (fun q => h q.1 % T == i) (p :: rest)
            = List.filter (fun q => h q.1 % T == i) rest :=
          List.filter_cons_of_neg (by simpa using hb)
        rw [hfil]
        by_cases hc : h k % T = i <;> simp [entrySum_cons, ih, hk, hc]

theorem mem_of_mem_assignedBucket {h : String → Nat} {T : Nat} {m : FreqMap} {i : Nat}
    {p : String × Nat} (hp : p ∈ assignedBucket h T m i) : p ∈ m :=
  List.mem_of_mem_filter hp

theorem addAll_sorted {m : FreqMap} {l : List (String × Nat)} (hs : SortedKeys m) :
    SortedKeys (addAll m l) := by
  induction l generalizing m with
  | nil => exact hs
  | cons p rest ih => exact ih (mapAdd_sorted hs)

theorem addAll_pos {m : FreqMap} {l : List (String × Nat)} (hm : PosEntries m)
    (hl : ∀ p ∈ l, 1 ≤ p.2) : PosEntries (addAll m l) := by
  induction l generalizing m with
  | nil => exact hm
  | cons p rest ih =>
    exact ih (mapAdd_pos hm (hl p (List.mem_cons_self p rest)))
      (fun q hq => hl q (List.mem_cons_of_mem p hq))

theorem mapGet_addAll {m : FreqMap} (l : List (String × Nat)) (k : String)
    (hs : SortedKeys m) :
    mapGet (addAll m l) k = mapGet m k + entrySum l k := by
  induction l generalizing m with
  | nil => simp [addAll, entrySum]
  | cons p rest ih =>
    have : addAll m (p :: rest) = addAll (mapAdd m p.1 p.2) rest := rfl
    rw [this, ih (mapAdd_sorted hs), mapGet_mapAdd hs p.1 k p.2, entrySum_cons]
    by_cases h : k = p.1
    · rw [if_pos h, if_pos h.symm]
      omega
    · rw [if_neg h, if_neg (fun he => h he.symm)]
      omega

theorem foldTokens_sorted (ts : List String) :
    ∀ m : FreqMap, SortedKeys m → SortedKeys (ts.foldl (fun m k => mapAdd m k 1) m) := by
  induction ts with
  | nil => exact fun m hm => hm
  | cons t rest ih => exact fun m hm => ih (mapAdd m t 1) (mapAdd_sorted hm)

theorem foldTokens_pos (ts : List String) :
    ∀ m : FreqMap, PosEntries m → PosEntries (ts.foldl (fun m k => mapAdd m k 1) m) := by
  induction ts with
  | nil => exact fun m hm => hm
  | cons t rest ih => exact fun m hm => ih (mapAdd m t 1) (mapAdd_pos hm (Nat.le_refl 1))

theorem mapGet_foldTokens (ts : List String) (k : String) :
    ∀ m : FreqMap, SortedKeys m →
      mapGet (ts.foldl (fun m k => mapAdd m k 1) m) k = mapGet m k + ts.count k := by
  induction ts with
  | nil => intro m _; simp [List.count_nil]
  | cons t rest ih =>
    intro m hm
    have step : (t :: rest).foldl (fun m k => mapAdd m k 1) m
        = rest.foldl (fun m k => mapAdd m k 1) (mapAdd m t 1) := rfl
    rw [step, ih (mapAdd m t 1) (mapAdd_sorted hm), mapGet_mapAdd hm t k 1,
      List.count_cons]
    by_cases h : k = t
    · simp [h]
      omega
    · simp [h]
      exact fun he => h he.symm

theorem process_file_sorted {n : Nat} {f : List Char} {m : FreqMap} (hm : SortedKeys m) :
    SortedKeys (process_file n f m) := foldTokens_sorted _ m hm

theorem process_file_pos {n : Nat} {f : List Char} {m : FreqMap} (hm : PosEntries m) :
    PosEntries (process_file n f m) := foldTokens_pos _ m hm

theorem mapGet_process_file (n : Nat) (f : List Char) (k : String) {m : FreqMap}
    (hm : SortedKeys m) :
    mapGet (process_file n f m) k = mapGet m k + (tokenize n f).count k :=
  mapGet_foldTokens _ k m hm

theorem filesFold_sorted (n : Nat) (fs : List (List Char)) :
    ∀ m : FreqMap, SortedKeys m →
      SortedKeys (fs.foldl (fun m f => process_file n f m) m) := by
  induction fs with
  | nil => exact fun m hm => hm
  | cons f rest ih => exact fun m hm => ih (process_file n f m) (process_file_sorted hm)

theorem filesFold_pos (n : Nat) (fs : List (List Char)) :
    ∀ m : FreqMap, PosEntries m →
      PosEntries (fs.foldl (fun m f => process_file n f m) m) := by
  induction fs with
  | nil => exact fun m hm => hm
  | cons f rest ih => exact fun m hm => ih (process_file n f m) (process_file_pos hm)

theorem mapGet_filesFold (n : Nat) (fs : List (List Char)) (k : String) :
    ∀ m : FreqMap, SortedKeys m →
      mapGet (fs.foldl (fun m f => process_file n f m) m) k
        = mapGet m k + (fs.flatMap (tokenize n)).count k := by
  induction fs with
  | nil => intro m _; simp
  | cons f rest ih =>
    intro m hm
    have step : (f :: rest).foldl (fun m f => process_file n f m) m
        = rest.foldl (fun m f => process_file n f m) (process_file n f m) := rfl
    rw [step, ih (process_file n f m) (process_file_sorted hm),
      mapGet_process_file n f k hm, List.flatMap_cons, List.count_append]
    omega

theorem sortedKeys_nil : SortedKeys [] := List.Pairwise.nil

theorem posEntries_nil : PosEntries [] := by intro p hp; cases hp

theorem localFreq_sorted (n : Nat) (files : List (List Char)) (sched : Nat → Nat)
    (w : Nat) : SortedKeys (localFreq n files sched w) :=
  filesFold_sorted n _ [] sortedKeys_nil

theorem localFreq_pos (n : Nat) (files : List (List Char)) (sched : Nat → Nat)
    (w : Nat) : PosEntries (localFreq n files sched w) :=
  filesFold_pos n _ [] posEntries_nil

theorem mapGet_localFreq (n : Nat) (files : List (List Char)) (sched : Nat → Nat)
    (w : Nat) (k : String) :
    mapGet (localFreq n files sched w) k = (workerTokens n files sched w).count k := by
  have := mapGet_filesFold n (workerFiles files sched w) k [] sortedKeys_nil
  simpa [localFreq, workerTokens, mapGet] using this

theorem referenceTable_sorted (n : Nat) (files : List (List Char)) :
    SortedKeys (referenceTable n files) := filesFold_sorted n files [] sortedKeys_nil

theorem referenceTable_pos (n : Nat) (files : List (List Char)) :
    PosEntries (referenceTable n files) := filesFold_pos n files [] posEntries_nil

theorem mapGet_referenceTable (n : Nat) (files : List (List Char)) (k : String) :
    mapGet (referenceTable n files) k = (allTokens n files).count k := by
  have := mapGet_filesFold n files k [] sortedKeys_nil
  simpa [referenceTable, allTokens, mapGet] using this

theorem sum_map_add (L : List Nat) (f g : Nat → Nat) :
    (L.map (fun w => f w + g w)).sum = (L.map f).sum + (L.map g).sum := by
  induction L with
  | nil => rfl
  | cons x rest ih =>
    simp only [List.map_cons, List.sum_cons, ih]
    omega

theorem sum_map_ite_zero (a : Nat → Nat) (w₀ : Nat) :
    ∀ L : List Nat, w₀ ∉ L → (L.map (fun w => if w₀ = w then a w else 0)).sum = 0 := by
  intro L
  induction L with
  | nil => intro _; rfl
  | cons x rest ih =>
    intro hw
    have hx : ¬ w₀ = x := fun he => hw (he ▸ List.mem_cons_self x rest)
    simp only [List.map_cons, List.sum_cons, if_neg hx,
      ih (fun hm => hw (List.mem_cons_of_mem x hm))]

theorem sum_map_ite (a : Nat → Nat) (w₀ : Nat) :
    ∀ L : List Nat, L.Nodup → w₀ ∈ L →
      (L.map (fun w => if w₀ = w then a w else 0)).sum = a w₀ := by
  intro L
  induction L with
  | nil => intro _ hw; cases hw
  | cons x rest ih =>
    intro hnd hw
    rcases List.nodup_cons.mp hnd with ⟨hx, hrest⟩
    rcases List.mem_cons.mp hw with h | h
    · subst h
      rw [List.map_cons, List.sum_cons, if_pos rfl,
        sum_map_ite_zero a w₀ rest hx, Nat.add_zero]
    · have hne : ¬ w₀ = x := fun he => hx (he ▸ h)
      rw [List.map_cons, List.sum_cons, if_neg hne, ih hrest h, Nat.zero_add]

theorem sum_counts_aux (n T : Nat) (sched : Nat → Nat) (k : String) :
    ∀ l : List (Nat × List Char), (∀ p ∈ l, sched p.1 < T) →
      ((List.range T).map (fun w =>
        ((((l.filter (fun p => sched p.1 == w)).map Prod.snd).flatMap (tokenize n)).count k))).sum
        = ((l.map Prod.snd).flatMap (tokenize n)).count k := by
  intro l
  induction l with
  | nil =>
    intro _
    simp [List.count_nil]
  | cons p rest ih =>
    intro hb
    have hmem : sched p.1 ∈ List.range T :=
      List.mem_range.mpr (hb p (List.mem_cons_self p rest))
    have hstep : (List.range T).map (fun w =>
        ((((p :: rest).filter (fun q => sched q.1 == w)).map Prod.snd).flatMap
          (tokenize n)).count k)
        = (List.range T).map (fun w =>
          (if sched p.1 = w then (tokenize n p.2).count k else 0) +
          (((rest.filter (fun q => sched q.1 == w)).map Prod.snd).flatMap
            (tokenize n)).count k) := by
      refine List.map_congr_left ?_
      intro w _
      by_cases hw : sched p.1 = w
      · have hfil : List.filter (fun q => sched q.1 == w) (p :: rest)
            = p :: List.filter (fun q => sched q.1 == w) rest :=
          List.filter_cons_of_pos (beq_iff_eq.mpr hw)
        rw [hfil, List.map_cons, List.flatMap_cons, List.count_append, if_pos hw]
      · have hfil : List.filter (fun q => sched q.1 == w) (p :: rest)
            = List.filter (fun q => sched q.1 == w) rest :=
          List.filter_cons_of_neg (by simp [hw])
        rw [hfil, if_neg hw, Nat.zero_add]
    rw [hstep, sum_map_add,
      sum_map_ite _ (sched p.1) (List.range T) (List.nodup_range T) hmem,
      ih (fun q hq => hb q (List.mem_cons_of_mem p hq)),
      List.map_cons, List.flatMap_cons, List.count_append]

theorem sum_workerTokens (n T : Nat) (files : List (List Char)) (sched : Nat → Nat)
    (hsch : ∀ i < files.length, sched i < T) (k : String) :
    ((List.range T).map (fun w => (workerTokens n files sched w).count k)).sum
      = (allTokens n files).count k := by
  have hb : ∀ p ∈ files.enum, sched p.1 < T :=
    fun p hp => hsch p.1 (List.fst_lt_of_mem_enum hp)
  have := sum_counts_aux n T sched k files.enum hb
  rw [List.enum_map_snd] at this
  simpa [workerTokens, workerFiles, allTokens] using this

theorem foldBuckets_sorted (n : Nat) (h : String → Nat) (T : Nat)
    (files : List (List Char)) (sched : Nat → Nat) (j : Nat) :
    ∀ (L : List Nat) (m : FreqMap), SortedKeys m →
      SortedKeys (L.foldl
        (fun acc t => addAll acc (assignedBucket h T (localFreq n files sched t) j)) m) := by
  intro L
  induction L with
  | nil => exact fun m hm => hm
  | cons t rest ih => exact fun m hm => ih _ (addAll_sorted hm)

theorem foldBuckets_pos (n : Nat) (h : String → Nat) (T : Nat)
    (files : List (List Char)) (sched : Nat → Nat) (j : Nat) :
    ∀ (L : List Nat) (m : FreqMap), PosEntries m →
      PosEntries (L.foldl
        (fun acc t => addAll acc (assignedBucket h T (localFreq n files sched t) j)) m) := by
  intro L
  induction L with
  | nil => exact fun m hm => hm
  | cons t rest ih =>
    intro m hm
    refine ih _ (addAll_pos hm ?_)
    intro p hp
    exact localFreq_pos n files sched t p (mem_of_mem_assignedBucket hp)

theorem mapGet_foldBuckets (n : Nat) (h : String → Nat) (T : Nat)
    (files : List (List Char)) (sched : Nat → Nat) (j : Nat) (k : String) :
    ∀ (L : List Nat) (m : FreqMap), SortedKeys m →
      mapGet (L.foldl
        (fun acc t => addAll acc (assignedBucket h T (localFreq n files sched t) j)) m) k
        = mapGet m k + (L.map (fun t =>
            if h k % T = j then (workerTokens n files sched t).count k else 0)).sum := by
  intro L
  induction L with
  | nil => intro m _; simp
  | cons t rest ih =>
    intro m hm
    have step : (t :: rest).foldl
        (fun acc t => addAll acc (assignedBucket h T (localFreq n files sched t) j)) m
        = rest.foldl
          (fun acc t => addAll acc (assignedBucket h T (localFreq n files sched t) j))
          (addAll m (assignedBucket h T (localFreq n files sched t) j)) := rfl
    rw [step, ih _ (addAll_sorted hm), mapGet_addAll _ k hm,
      entrySum_assignedBucket, entrySum_eq_mapGet (localFreq_sorted n files sched t) k,
      mapGet_localFreq, List.map_cons, List.sum_cons]
    omega

theorem reducedFreq_sorted (n : Nat) (h : String → Nat) (T : Nat)
    (files : List (List Char)) (sched : Nat → Nat) (j : Nat) :
    SortedKeys (reducedFreq n h T files sched j) :=
  foldBuckets_sorted n h T files sched j (List.range T) [] sortedKeys_nil

theorem reducedFreq_pos (n : Nat) (h : String → Nat) (T : Nat)
    (files : List (List Char)) (sched : Nat → Nat) (j : Nat) :
    PosEntries (reducedFreq n h T files sched j) :=
  foldBuckets_pos n h T files sched j (List.range T) [] posEntries_nil

/-- The heart of the counting claims: worker `j`'s reduced table stores, for
a key it owns, the total count of that key over all files, and stores
nothing for any other key — independently of how the schedule distributed
the files. -/
theorem mapGet_reducedFreq (n : Nat) (h : String → Nat) (T : Nat)
    (files : List (List Char)) (sched : Nat → Nat)
    (hsch : ∀ i < files.length, sched i < T) (j : Nat) (k : String) :
    mapGet (reducedFreq n h T files sched j) k
      = if h k % T = j then (allTokens n files).count k else 0 := by
  have := mapGet_foldBuckets n h T files sched j k (List.range T) [] sortedKeys_nil
  rw [reducedFreq, this]
  by_cases hc : h k % T = j
  · simp only [if_pos hc, mapGet, Nat.zero_add]
    exact sum_workerTokens n T files sched hsch k
  · simp [hc, mapGet]

theorem mem_keys_of_mapGet_ne_zero : ∀ {m : FreqMap} {k : String},
    mapGet m k ≠ 0 → k ∈ m.map Prod.fst := by
  intro m
  induction m with
  | nil => intro k hk; exact absurd rfl hk
  | cons p rest ih =>
    obtain ⟨k₀, c₀⟩ := p
    intro k hk
    by_cases h : k = k₀
    · rw [h]; exact List.mem_map_of_mem Prod.fst (List.mem_cons_self _ _)
    · rw [show mapGet ((k₀, c₀) :: rest) k = mapGet rest k from by simp [mapGet, h]] at hk
      rcases List.mem_map.mp (ih hk) with ⟨q, hq, he⟩
      exact he ▸ List.mem_map_of_mem Prod.fst (List.mem_cons_of_mem _ hq)

theorem mapGet_ne_zero_of_mem_keys : ∀ {m : FreqMap}, PosEntries m → ∀ {k : String},
    k ∈ m.map Prod.fst → mapGet m k ≠ 0 := by
  intro m
  induction m with
  | nil => intro _ k hk; simp at hk
  | cons p rest ih =>
    obtain ⟨k₀, c₀⟩ := p
    intro hpos k hk
    by_cases h : k = k₀
    · have h1 : 1 ≤ c₀ := hpos (k₀, c₀) (List.mem_cons_self _ _)
      rw [show mapGet ((k₀, c₀) :: rest) k = c₀ from by simp [mapGet, h]]
      omega
    · rw [show mapGet ((k₀, c₀) :: rest) k = mapGet rest k from by simp [mapGet, h]]
      refine ih (fun q hq => hpos q (List.mem_cons_of_mem _ hq)) ?_
      rcases List.mem_map.mp hk with ⟨q, hq, he⟩
      rcases List.mem_cons.mp hq with h' | h'
      · exact absurd (he ▸ congrArg Prod.fst h' ▸ rfl : k = k₀) h
      · exact he ▸ List.mem_map_of_mem Prod.fst h'

theorem eq_nil_of_mapGet_zero {m : FreqMap} (hpos : PosEntries m)
    (hz : ∀ k, mapGet m k = 0) : m = [] := by
  cases m with
  | nil => rfl
  | cons p rest =>
    obtain ⟨k₀, c₀⟩ := p
    have h1 : 1 ≤ c₀ := hpos (k₀, c₀) (List.mem_cons_self _ _)
    have h0 := hz k₀
    rw [show mapGet ((k₀, c₀) :: rest) k₀ = c₀ from by simp [mapGet]] at h0
    omega

/-! ### Properties of the top-five selection -/

theorem insertByCount_perm (p : String × Nat) (l : List (String × Nat)) :
    List.Perm (insertByCount p l) (p :: l) := by
  induction l with
  | nil => exact List.Perm.refl _
  | cons q rest ih =>
    simp only [insertByCount]
    by_cases hq : q.2 < p.2
    · rw [if_pos hq]
    · rw [if_neg hq]
      exact (ih.cons q).trans (List.Perm.swap p q rest)

theorem sortByCountDesc_perm (l : List (String × Nat)) :
    List.Perm (sortByCountDesc l) l := by
  induction l with
  | cons q rest ih =>
    exact (insertByCount_perm q _).trans (ih.cons q)
  | nil => exact List.Perm.refl _

theorem insertByCount_sortedD (p : String × Nat) (l : List (String × Nat))
    (hl : List.Pairwise (fun a b : String × Nat => b.2 ≤ a.2) l) :
    List.Pairwise (fun a b : String × Nat => b.2 ≤ a.2) (insertByCount p l) := by
  induction l with
  | nil => simp [insertByCount]
  | cons q rest ih =>
    rcases List.pairwise_cons.mp hl with ⟨hq, hrest⟩
    simp only [insertByCount]
    by_cases hlt : q.2 < p.2
    · rw [if_pos hlt]
      refine List.pairwise_cons.mpr ⟨?_, hl⟩
      intro b hb
      rcases List.mem_cons.mp hb with h | h
      · rw [h]; exact Nat.le_of_lt hlt
      · exact Nat.le_trans (hq b h) (Nat.le_of_lt hlt)
    · rw [if_neg hlt]
      refine List.pairwise_cons.mpr ⟨?_, ih hrest⟩
      intro b hb
      rcases List.mem_cons.mp ((insertByCount_perm p rest).mem_iff.mp hb) with h | h
      · rw [h]; exact Nat.le_of_not_lt hlt
      · exact hq b h

theorem sortByCountDesc_sorted (l : List (String × Nat)) :
    List.Pairwise (fun a b : String × Nat => b.2 ≤ a.2) (sortByCountDesc l) := by
  induction l with
  | nil => exact List.Pairwise.nil
  | cons q rest ih => exact insertByCount_sortedD q _ ih

theorem topFive_take_drop (m : FreqMap) :
    (topFive m).take (min 5 m.length) = (sortByCountDesc m).take 5 ∧
    (topFive m).drop (min 5 m.length) = List.replicate (5 - min 5 m.length) ("", 0) := by
  have hlen : ((sortByCountDesc m).take 5).length = min 5 m.length := by
    rw [List.length_take, (sortByCountDesc_perm m).length_eq]
  exact ⟨List.take_left' hlen, List.drop_left' hlen⟩

theorem topFive_length (m : FreqMap) : (topFive m).length = 5 := by
  rw [topFive, List.length_append, List.length_take, List.length_replicate,
    (sortByCountDesc_perm m).length_eq]
  omega

/-- Full characterization of the reported slots for an arbitrary table. -/
theorem topFive_correct (m : FreqMap) :
    (topFive m).length = 5 ∧
    List.Pairwise (fun a b : String × Nat => b.2 ≤ a.2)
      ((topFive m).take (min 5 m.length)) ∧
    (∃ rest, List.Perm m ((topFive m).take (min 5 m.length) ++ rest) ∧
      ∀ p ∈ (topFive m).take (min 5 m.length), ∀ q ∈ rest, q.2 ≤ p.2) ∧
    (topFive m).drop (min 5 m.length) = List.replicate (5 - min 5 m.length) ("", 0) ∧
    (∀ p ∈ (topFive m).drop (min 5 m.length), renderSlot p = "       ...") := by
  obtain ⟨htake, hdrop⟩ := topFive_take_drop m
  have hsorted := sortByCountDesc_sorted m
  refine ⟨topFive_length m, ?_, ?_, hdrop, ?_⟩
  · rw [htake]
    exact hsorted.sublist (List.take_sublist 5 _)
  · refine ⟨(sortByCountDesc m).drop 5, ?_, ?_⟩
    · rw [htake]
      have : (sortByCountDesc m).take 5 ++ (sortByCountDesc m).drop 5
          = sortByCountDesc m := List.take_append_drop 5 _
      rw [this]
      exact (sortByCountDesc_perm m).symm
    · rw [htake]
      intro p hp q hq
      have hsplit := hsorted
      rw [← List.take_append_drop 5 (sortByCountDesc m)] at hsplit
      exact (List.pairwise_append.mp hsplit).2.2 p hp q hq
  · rw [hdrop]
    intro p hp
    rw [List.eq_of_mem_replicate hp]
    rfl

/-- A zero-count slot of the report is the untouched placeholder pair. -/
theorem topFive_zero_slot {m : FreqMap} (hpos : PosEntries m) :
    ∀ p ∈ topFive m, p.2 = 0 → p = ("", 0) := by
  intro p hp hz
  rcases List.mem_append.mp (by rw [topFive] at hp; exact hp) with h | h
  · have hmem : p ∈ sortByCountDesc m := (List.take_sublist 5 _).subset h
    have : 1 ≤ p.2 := hpos p ((sortByCountDesc_perm m).mem_iff.mp hmem)
    omega
  · exact List.eq_of_mem_replicate h

/-! ### Claim theorems -/

/-- C1: for every list of files, every configuration with `workerCount ≥ 1`
and `n ≥ 1`, every schedule produced by the work distribution, and every
n-gram `k`, the sum over all workers of the count stored for `k` in their
reduced tables equals the count of `k` in the naive single-threaded
reference table that tokenizes the same files into one table. -/
theorem claim1_global_count (n T : Nat) (h : String → Nat) (files : List (List Char))
    (sched : Nat → Nat) (hT : 1 ≤ T) (hn : 1 ≤ n)
    (hsch : ∀ i < files.length, sched i < T) (k : String) :
    ((List.range T).map (fun w => mapGet (reducedFreq n h T files sched w) k)).sum
      = mapGet (referenceTable n files) k := by
  rw [mapGet_referenceTable]
  have hmap : (List.range T).map (fun w => mapGet (reducedFreq n h T files sched w) k)
      = (List.range T).map (fun w =>
          if h k % T = w then (allTokens n files).count k else 0) :=
    List.map_congr_left (fun w _ => mapGet_reducedFreq n h T files sched hsch w k)
  rw [hmap]
  exact sum_map_ite (fun _ => (allTokens n files).count k) (h k % T) (List.range T)
    (List.nodup_range T) (List.mem_range.mpr (Nat.mod_lt _ hT))

/-- Witness for C1: a concrete two-worker, two-file run. -/
theorem claim1_global_count_witness :
    ((List.range 2).map (fun w =>
      mapGet (reducedFreq 2 (fun s => s.data.length) 2 exFiles (fun _ => 0) w) "a b")).sum
      = mapGet (referenceTable 2 exFiles) "a b" :=
  claim1_global_count 2 2 (fun s => s.data.length) exFiles (fun _ => 0)
    (by decide) (by decide) (fun _ _ => Nat.succ_pos 1) "a b"

/-- C2: if a worker's reduced table stores a nonzero count for `k`, that
worker's index is `hash k mod workerCount`; consequently no two distinct
workers' reduced tables both contain `k`. -/
theorem claim2_partition_ownership (n T : Nat) (h : String → Nat)
    (files : List (List Char)) (sched : Nat → Nat)
    (hsch : ∀ i < files.length, sched i < T) (k : String) (w w' : Nat) :
    (mapGet (reducedFreq n h T files sched w) k ≠ 0 → w = h k % T) ∧
    (w ≠ w' → ¬ (k ∈ (reducedFreq n h T files sched w).map Prod.fst ∧
      k ∈ (reducedFreq n h T files sched w').map Prod.fst)) := by
  have hch : ∀ v : Nat, mapGet (reducedFreq n h T files sched v) k ≠ 0 → h k % T = v := by
    intro v hv
    by_cases hc : h k % T = v
    · exact hc
    · rw [mapGet_reducedFreq n h T files sched hsch v k, if_neg hc] at hv
      exact absurd rfl hv
  constructor
  · intro hv
    exact (hch w hv).symm
  · rintro hne ⟨h1, h2⟩
    have g1 := hch w (mapGet_ne_zero_of_mem_keys (reducedFreq_pos n h T files sched w) h1)
    have g2 := hch w' (mapGet_ne_zero_of_mem_keys (reducedFreq_pos n h T files sched w') h2)
    exact hne (g1.symm.trans g2)

/-- Witness for C2: in a concrete run, no key is in two workers' tables. -/
theorem claim2_partition_ownership_witness :
    ¬ ("a b" ∈ (reducedFreq 2 (fun s => s.data.length) 2 exFiles (fun _ => 0) 0).map Prod.fst ∧
       "a b" ∈ (reducedFreq 2 (fun s => s.data.length) 2 exFiles (fun _ => 0) 1).map Prod.fst) :=
  (claim2_partition_ownership 2 2 (fun s => s.data.length) exFiles (fun _ => 0)
    (fun _ _ => Nat.succ_pos 1) "a b" 0 1).2 (by decide)

/-- C3 as stated is false on the code: the comma after `Hello` is mapped to
the break marker, so the first two segments are `hello` and ` world` and
neither yields a 2-gram; the total count of `hello world` is 1, not 2. -/
theorem claim3_counterexample :
    ¬ ((tokenize 2 exInput).count "hello world" = 2) := by decide

/-- C3 (amended): tokenizing `"Hello, World! Hello world."` with `n = 2`
yields `hello world` exactly once, emitted from the third segment
`hello world` (the text after the `!` break); the segments around the
comma and exclamation breaks yield no n-gram, so no n-gram crosses a
break. -/
theorem claim3_amended :
    tokenize 2 exInput = ["hello world"] ∧
    (splitOnBreak (normalizeContents exInput)).map
      (fun seg => if seg = [] then [] else ngramsFrom 2 (wordsOf seg))
      = [[], [], ["hello world"], []] ∧
    (tokenize 2 exInput).count "hello world" = 1 := by decide

/-- C4 as stated is false on the code: the file `a b a b` also contains the
2-gram `b a` (count 1), so the global counts are `{a b ↦ 3, b a ↦ 1}`, not
`{a b ↦ 3}` alone. -/
theorem claim4_counterexample :
    mapGet (referenceTable 2 exFiles) "a b" = 3 ∧
    mapGet (referenceTable 2 exFiles) "b a" = 1 := by decide

/-- C4 (amended): for the two files, `n = 2`, `workerCount = 2`, and any
hash and schedule: the worker owning `a b` reports it with count 3, the
worker owning `b a` reports it with count 1, every other key has count 0
everywhere, and a worker owning neither key reports five placeholders. -/
theorem claim4_amended (h : String → Nat) (sched : Nat → Nat)
    (hsch : ∀ i < exFiles.length, sched i < 2) (w : Nat) :
    mapGet (reducedFreq 2 h 2 exFiles sched w) "a b"
      = (if h "a b" % 2 = w then 3 else 0) ∧
    mapGet (reducedFreq 2 h 2 exFiles sched w) "b a"
      = (if h "b a" % 2 = w then 1 else 0) ∧
    (∀ k, k ≠ "a b" → k ≠ "b a" → mapGet (reducedFreq 2 h 2 exFiles sched w) k = 0) ∧
    (h "a b" % 2 ≠ w → h "b a" % 2 ≠ w →
      topFive (reducedFreq 2 h 2 exFiles sched w) = List.replicate 5 ("", 0)) := by
  have htok : allTokens 2 exFiles = ["a b", "b a", "a b", "a b"] := by decide
  have hc1 : (["a b", "b a", "a b", "a b"] : List String).count "a b" = 3 := by decide
  have hc2 : (["a b", "b a", "a b", "a b"] : List String).count "b a" = 1 := by decide
  have hget : ∀ k, mapGet (reducedFreq 2 h 2 exFiles sched w) k
      = if h k % 2 = w then (allTokens 2 exFiles).count k else 0 :=
    fun k => mapGet_reducedFreq 2 h 2 exFiles sched hsch w k
  refine ⟨?_, ?_, ?_, ?_⟩
  · rw [hget, htok, hc1]
  · rw [hget, htok, hc2]
  · intro k hk1 hk2
    rw [hget, htok, List.count_eq_zero.mpr (by simp [hk1, hk2]), ite_self]
  · intro h1 h2
    have hz : ∀ k, mapGet (reducedFreq 2 h 2 exFiles sched w) k = 0 := by
      intro k
      rw [hget, htok]
      by_cases hcw : h k % 2 = w
      · rw [if_pos hcw]
        by_cases hk1 : k = "a b"
        · exact absurd (hk1 ▸ hcw) h1
        · by_cases hk2 : k = "b a"
          · exact absurd (hk2 ▸ hcw) h2
          · rw [List.count_eq_zero.mpr (by simp [hk1, hk2])]
      · rw [if_neg hcw]
    rw [eq_nil_of_mapGet_zero (reducedFreq_pos 2 h 2 exFiles sched w) hz]
    decide

/-- Witness for C4 (amended) at a concrete hash, schedule and worker. -/
theorem claim4_amended_witness :
    mapGet (reducedFreq 2 (fun s => s.data.length) 2 exFiles (fun _ => 0) 1) "a b"
      = (if (fun s : String => s.data.length) "a b" % 2 = 1 then 3 else 0) :=
  (claim4_amended (fun s => s.data.length) (fun _ => 0) (fun _ _ => Nat.succ_pos 1) 1).1

/-- C8: every worker's report is an ordered sequence of exactly 5 slots;
the first `min 5 (number of distinct n-grams)` slots are entries of the
reduced table with the largest counts, in descending count order, and every
remaining slot keeps the zero/empty initial value and is rendered as the
placeholder line. -/
theorem claim8_report_shape (n T : Nat) (h : String → Nat) (files : List (List Char))
    (sched : Nat → Nat) (w : Nat) :
    (topFive (reducedFreq n h T files sched w)).length = 5 ∧
    List.Pairwise (fun a b : String × Nat => b.2 ≤ a.2)
      ((topFive (reducedFreq n h T files sched w)).take
        (min 5 (reducedFreq n h T files sched w).length)) ∧
    (∃ rest, List.Perm (reducedFreq n h T files sched w)
        ((topFive (reducedFreq n h T files sched w)).take
          (min 5 (reducedFreq n h T files sched w).length) ++ rest) ∧
      ∀ p ∈ (topFive (reducedFreq n h T files sched w)).take
        (min 5 (reducedFreq n h T files sched w).length),
        ∀ q ∈ rest, q.2 ≤ p.2) ∧
    (topFive (reducedFreq n h T files sched w)).drop
        (min 5 (reducedFreq n h T files sched w).length)
      = List.replicate (5 - min 5 (reducedFreq n h T files sched w).length) ("", 0) ∧
    (∀ p ∈ (topFive (reducedFreq n h T files sched w)).drop
        (min 5 (reducedFreq n h T files sched w).length),
      renderSlot p = "       ...") :=
  topFive_correct (reducedFreq n h T files sched w)

/-- C9: counts are only created by the `++` increment and merged by summing
positive contributions, so every entry of any (intermediate or final) local
table and of any reduced table has count at least 1, and a zero-count slot
of the report is exactly the untouched placeholder `("", 0)`. -/
theorem claim9_counts_positive (n T : Nat) (h : String → Nat) (files : List (List Char))
    (sched : Nat → Nat) (w : Nat) :
    (∀ (ts : List String) (m : FreqMap), PosEntries m →
      PosEntries (ts.foldl (fun m k => mapAdd m k 1) m)) ∧
    (∀ (l : List (String × Nat)) (m : FreqMap), PosEntries m →
      (∀ p ∈ l, 1 ≤ p.2) → PosEntries (addAll m l)) ∧
    (∀ p ∈ localFreq n files sched w, 1 ≤ p.2) ∧
    (∀ p ∈ reducedFreq n h T files sched w, 1 ≤ p.2) ∧
    (∀ p ∈ topFive (reducedFreq n h T files sched w), p.2 = 0 → p = ("", 0)) :=
  ⟨fun ts m hm => foldTokens_pos ts m hm,
   fun _ _ hm hl => addAll_pos hm hl,
   localFreq_pos n files sched w,
   reducedFreq_pos n h T files sched w,
   topFive_zero_slot (reducedFreq_pos n h T files sched w)⟩

theorem claimResults_eq_range' : ∀ (m s : Nat), claimResults s m = List.range' s m := by
  intro m
  induction m with
  | zero => intro s; rfl
  | succ m ih =>
    intro s
    show s :: claimResults (s + 1) m = s :: List.range' (s + 1) m
    rw [ih (s + 1)]

/-- C6: the linearized fetch-and-add claims starting from 0 return exactly
`0, 1, …, m-1` in time order — monotonically increasing from 0 with no
value returned twice; and a worker's claim loop processes exactly the
values below the file-list length that precede its first out-of-range
value, stopping at that first out-of-range value. -/
theorem claim6_work_cursor (m len : Nat) (vs : List Nat) :
    claimResults 0 m = List.range m ∧
    List.Pairwise (· < ·) (claimResults 0 m) ∧
    (claimResults 0 m).Nodup ∧
    workerLoop len vs = vs.takeWhile (fun v => decide (v < len)) := by
  have h0 : claimResults 0 m = List.range m := by
    rw [claimResults_eq_range' m 0, List.range_eq_range' m]
  refine ⟨h0, ?_, ?_, ?_⟩
  · rw [h0]; exact List.pairwise_lt_range m
  · rw [h0]; exact List.nodup_range m
  · induction vs with
    | nil => rfl
    | cons v rest ih =>
      by_cases hv : v < len
      · simp [workerLoop, hv, ih]
      · simp [workerLoop, hv]

/-- C10: a byte outside every mapped range — a control character below 33
other than tab and newline, or a byte above 126 — is left unchanged by all
three transforms, is not a word character and is not the break marker: it
separates words inside a segment without starting a new segment, so two
letter runs separated only by such a byte stay in one segment and together
form an n-gram. -/
theorem claim10_unmapped_bytes (c : Char)
    (hc : (c.toNat < 33 ∧ c.toNat ≠ 9 ∧ c.toNat ≠ 10) ∨ 126 < c.toNat) :
    toLowerCase c = c ∧ removeNewlineAndTab c = c ∧ removePunctuationAndNumbers c = c ∧
    isWordChar c = false ∧ c ≠ Char.ofNat 124 ∧
    tokenize 2 ['a', 'b', c, 'c', 'd'] = ["ab cd"] := by
  have h1 : toLowerCase c = c := by
    rw [toLowerCase, if_neg]
    rcases hc with ⟨h, _, _⟩ | h <;> omega
  have h2 : removeNewlineAndTab c = c := by
    rw [removeNewlineAndTab, if_neg]
    rcases hc with ⟨_, h9, h10⟩ | h <;> omega
  have h3 : removePunctuationAndNumbers c = c := by
    rw [removePunctuationAndNumbers, if_neg]
    rcases hc with ⟨h, _, _⟩ | h <;> omega
  have h4 : isWordChar c = false := by
    rw [isWordChar]
    rcases hc with ⟨h, _, _⟩ | h
    · have : ¬ (97 ≤ c.toNat) := by omega
      simp [this]
    · have : ¬ (c.toNat ≤ 122) := by omega
      simp [this]
  have h5 : c ≠ Char.ofNat 124 := by
    intro he
    have : c.toNat = 124 := by rw [he]; decide
    rcases hc with ⟨h, _, _⟩ | h <;> omega
  have hmisc : toLowerCase 'a' = 'a' ∧ toLowerCase 'b' = 'b' ∧ toLowerCase 'c' = 'c' ∧
      toLowerCase 'd' = 'd' ∧ removeNewlineAndTab 'a' = 'a' ∧ removeNewlineAndTab 'b' = 'b' ∧
      removeNewlineAndTab 'c' = 'c' ∧ removeNewlineAndTab 'd' = 'd' ∧
      removePunctuationAndNumbers 'a' = 'a' ∧ removePunctuationAndNumbers 'b' = 'b' ∧
      removePunctuationAndNumbers 'c' = 'c' ∧ removePunctuationAndNumbers 'd' = 'd' := by
    decide
  obtain ⟨t1, t2, t3, t4, t5, t6, t7, t8, t9, t10, t11, t12⟩ := hmisc
  have hnorm : normalizeContents ['a', 'b', c, 'c', 'd'] = ['a', 'b', c, 'c', 'd'] := by
    simp [normalizeContents, t1, t2, t3, t4, t5, t6, t7, t8, t9, t10, t11, t12, h1, h2, h3]
  have hsplit : splitOnBreak ['a', 'b', c, 'c', 'd'] = [['a', 'b', c, 'c', 'd']] := by
    have hca : ¬ ('a' = Char.ofNat 124) := by decide
    have hcb : ¬ ('b' = Char.ofNat 124) := by decide
    have hcc : ¬ ('c' = Char.ofNat 124) := by decide
    have hcd : ¬ ('d' = Char.ofNat 124) := by decide
    simp [splitOnBreak, hca, hcb, hcc, hcd, h5]
  have hwords : wordsOf ['a', 'b', c, 'c', 'd'] = [['a', 'b'], ['c', 'd']] := by
    have hwa : isWordChar 'a' = true := by decide
    have hwb : isWordChar 'b' = true := by decide
    have hwc : isWordChar 'c' = true := by decide
    have hwd : isWordChar 'd' = true := by decide
    simp [wordsOf, wordsAux, hwa, hwb, hwc, hwd, h4]
  refine ⟨h1, h2, h3, h4, h5, ?_⟩
  rw [tokenize, hnorm, hsplit]
  show (if (['a', 'b', c, 'c', 'd'] : List Char) = [] then []
    else ngramsFrom 2 (wordsOf ['a', 'b', c, 'c', 'd'])) ++ [] = ["ab cd"]
  rw [if_neg (by simp), hwords]
  decide

/-- Witness for C10: the carriage-return byte 13 behaves as a separator
inside a segment. -/
theorem claim10_unmapped_bytes_witness :
    tokenize 2 ['a', 'b', Char.ofNat 13, 'c', 'd'] = ["ab cd"] :=
  (claim10_unmapped_bytes (Char.ofNat 13) (by decide)).2.2.2.2.2

theorem ngramsFrom_eq_spec (n : Nat) (hn : 1 ≤ n) :
    ∀ ws : List (List Char), ngramsFrom n ws = spec_segment_ngrams n ws := by
  intro ws
  induction ws with
  | nil => rfl
  | cons w rest ih =>
    have hmap : ((List.range rest.length).map Nat.succ).filterMap
        (fun p => if p + n ≤ rest.length + 1
          then some (joinWords (((w :: rest).drop p).take n)) else none)
        = spec_segment_ngrams n rest := by
      rw [List.filterMap_map, spec_segment_ngrams]
      refine List.filterMap_congr ?_
      intro p _
      show (if Nat.succ p + n ≤ rest.length + 1
        then some (joinWords (((w :: rest).drop (Nat.succ p)).take n)) else none) = _
      rw [List.drop_succ_cons]
      by_cases hp : p + n ≤ rest.length
      · rw [if_pos (by omega), if_pos hp]
      · rw [if_neg (by omega), if_neg hp]
    have hunfold : spec_segment_ngrams n (w :: rest)
        = (0 :: (List.range rest.length).map Nat.succ).filterMap
          (fun p => if p + n ≤ rest.length + 1
            then some (joinWords (((w :: rest).drop p).take n)) else none) := by
      rw [spec_segment_ngrams, List.length_cons, List.range_succ_eq_map]
    rw [hunfold]
    by_cases hcond : n ≤ rest.length + 1
    · have hf0 : (fun p => if p + n ≤ rest.length + 1
          then some (joinWords (((w :: rest).drop p).take n)) else none) 0
          = some (joinWords ((w :: rest).take n)) := by
        show (if 0 + n ≤ rest.length + 1 then _ else _) = _
        rw [if_pos (by omega), List.drop_zero]
      have hsome : (0 :: (List.range rest.length).map Nat.succ).filterMap
          (fun p => if p + n ≤ rest.length + 1
            then some (joinWords (((w :: rest).drop p).take n)) else none)
          = joinWords ((w :: rest).take n)
            :: ((List.range rest.length).map Nat.succ).filterMap
              (fun p => if p + n ≤ rest.length + 1
                then some (joinWords (((w :: rest).drop p).take n)) else none) :=
        List.filterMap_cons_some hf0
      rw [hsome, hmap]
      show (if 1 ≤ n ∧ n ≤ rest.length + 1 then [joinWords ((w :: rest).take n)] else [])
        ++ ngramsFrom n rest = _
      rw [if_pos ⟨hn, hcond⟩, ih, List.singleton_append]
    · have hf0 : (fun p => if p + n ≤ rest.length + 1
          then some (joinWords (((w :: rest).drop p).take n)) else none) 0 = none := by
        show (if 0 + n ≤ rest.length + 1 then _ else _) = _
        rw [if_neg (by omega)]
      have hnone : (0 :: (List.range rest.length).map Nat.succ).filterMap
          (fun p => if p + n ≤ rest.length + 1
            then some (joinWords (((w :: rest).drop p).take n)) else none)
          = ((List.range rest.length).map Nat.succ).filterMap
              (fun p => if p + n ≤ rest.length + 1
                then some (joinWords (((w :: rest).drop p).take n)) else none) :=
        List.filterMap_cons_none hf0
      rw [hnone, hmap]
      show (if 1 ≤ n ∧ n ≤ rest.length + 1 then [joinWords ((w :: rest).take n)] else [])
        ++ ngramsFrom n rest = _
      rw [if_neg (fun hand => hcond hand.2), ih, List.nil_append]

theorem wordsAux_charset : ∀ (l acc : List Char), (∀ ch ∈ acc, isWordChar ch = true) →
    ∀ w ∈ wordsAux l acc, ∀ ch ∈ w, isWordChar ch = true := by
  intro l
  induction l with
  | nil =>
    intro acc hacc w hw
    rw [wordsAux] at hw
    by_cases h : acc = []
    · rw [if_pos h] at hw; cases hw
    · rw [if_neg h, List.mem_singleton] at hw
      subst hw; exact hacc
  | cons c rest ih =>
    intro acc hacc w hw
    rw [wordsAux] at hw
    by_cases hc : isWordChar c = true
    · rw [if_pos hc] at hw
      refine ih (acc ++ [c]) ?_ w hw
      intro ch hch
      rcases List.mem_append.mp hch with h | h
      · exact hacc ch h
      · rw [List.mem_singleton] at h; subst h; exact hc
    · rw [if_neg hc] at hw
      by_cases ha : acc = []
      · rw [if_pos ha] at hw
        exact ih [] (fun ch hch => absurd hch (List.not_mem_nil ch)) w hw
      · rw [if_neg ha] at hw
        rcases List.mem_cons.mp hw with h | h
        · subst h; exact hacc
        · exact ih [] (fun ch hch => absurd hch (List.not_mem_nil ch)) w h

theorem joinChars_charset : ∀ ws : List (List Char),
    (∀ w ∈ ws, ∀ ch ∈ w, isWordChar ch = true) →
    ∀ ch ∈ joinChars ws, isWordChar ch = true ∨ ch = Char.ofNat 32
  | [], _, ch, hch => absurd hch (List.not_mem_nil ch)
  | [w], hws, ch, hch => Or.inl (hws w (List.mem_singleton.mpr rfl) ch hch)
  | w :: w' :: rest, hws, ch, hch => by
    have hj : joinChars (w :: w' :: rest) = w ++ Char.ofNat 32 :: joinChars (w' :: rest) := rfl
    rw [hj] at hch
    rcases List.mem_append.mp hch with h | h
    · exact Or.inl (hws w (List.mem_cons_self _ _) ch h)
    · rcases List.mem_cons.mp h with h' | h'
      · exact Or.inr h'
      · exact joinChars_charset (w' :: rest)
          (fun v hv => hws v (List.mem_cons_of_mem _ hv)) ch h'

theorem ngramsFrom_mem {n : Nat} : ∀ {ws : List (List Char)} {s : String},
    s ∈ ngramsFrom n ws → ∃ ws', (∀ w ∈ ws', w ∈ ws) ∧ s = joinWords ws' := by
  intro ws
  induction ws with
  | nil => intro s hs; cases hs
  | cons w rest ih =>
    intro s hs
    rw [ngramsFrom] at hs
    rcases List.mem_append.mp hs with h | h
    · by_cases hcond : 1 ≤ n ∧ n ≤ (w :: rest).length
      · rw [if_pos hcond, List.mem_singleton] at h
        exact ⟨(w :: rest).take n, fun v hv => (List.take_sublist n _).subset hv, h⟩
      · rw [if_neg hcond] at h; cases h
    · rcases ih h with ⟨ws', hsub, he⟩
      exact ⟨ws', fun v hv => List.mem_cons_of_mem w (hsub v hv), he⟩

theorem tokenize_charset (n : Nat) (content : List Char) :
    ∀ s ∈ tokenize n content, ∀ ch ∈ s.data, isWordChar ch = true ∨ ch = Char.ofNat 32 := by
  intro s hs ch hch
  rw [tokenize] at hs
  rcases List.mem_flatMap.mp hs with ⟨seg, hseg, hmem⟩
  by_cases hnil : seg = []
  · rw [if_pos hnil] at hmem; cases hmem
  · rw [if_neg hnil] at hmem
    rcases ngramsFrom_mem hmem with ⟨ws', hsub, he⟩
    subst he
    exact joinChars_charset ws'
      (fun v hv => wordsAux_charset seg [] (fun c hc => absurd hc (List.not_mem_nil c))
        v (hsub v hv)) ch hch

/-- C5: the code tokenizer refines the spec: it equals the spec-worded
tokenizer that emits, per segment, exactly one n-gram per word position
with at least `n - 1` further words (the word and its successors joined by
single spaces); the empty file emits nothing; and every character of an
emitted n-gram is a lowercase letter or a space, so no n-gram contains a
break position. -/
theorem claim5_tokenizer_refinement (n : Nat) (content : List Char) (hn : 1 ≤ n) :
    tokenize n content = spec_tokenize n content ∧
    tokenize n [] = [] ∧
    (∀ s ∈ tokenize n content, ∀ ch ∈ s.data, isWordChar ch = true ∨ ch = Char.ofNat 32) := by
  refine ⟨?_, rfl, tokenize_charset n content⟩
  rw [tokenize, spec_tokenize]
  have hfun : (fun seg : List Char => if seg = [] then [] else ngramsFrom n (wordsOf seg))
      = (fun seg : List Char => spec_segment_ngrams n (wordsOf seg)) := by
    funext seg
    by_cases hnil : seg = []
    · rw [if_pos hnil, hnil]
      rfl
    · rw [if_neg hnil, ngramsFrom_eq_spec n hn (wordsOf seg)]
  rw [hfun]

/-- Witness for C5 at a concrete input. -/
theorem claim5_tokenizer_refinement_witness :
    tokenize 2 exInput = spec_tokenize 2 exInput :=
  (claim5_tokenizer_refinement 2 exInput (by decide)).1

theorem ev_indexOf_cons_self (a : Ev) (l : List Ev) : (a :: l).indexOf a = 0 := by
  rw [List.indexOf_cons, beq_self_eq_true a]
  rfl

theorem ev_indexOf_cons_ne (l : List Ev) {a b : Ev} (h : ¬ (a = b)) :
    (b :: l).indexOf a = l.indexOf a + 1 := by
  rw [List.indexOf_cons, beq_eq_false_iff_ne.mpr (fun he => h he.symm)]
  rfl

theorem indexOf_append_lt {l₁ l₂ : List Ev} {a b : Ev} (ha : a ∈ l₁) (hb : b ∉ l₁) :
    (l₁ ++ l₂).indexOf a < (l₁ ++ l₂).indexOf b := by
  rw [List.indexOf_append_of_mem ha, List.indexOf_append_of_not_mem hb]
  have := List.indexOf_lt_length.mpr ha
  omega

theorem before_of_filter_before (p : Ev → Bool) :
    ∀ (tr : List Ev) (a b : Ev), a ≠ b → b ∈ tr.filter p →
      (tr.filter p).indexOf a < (tr.filter p).indexOf b →
      tr.indexOf a < tr.indexOf b := by
  intro tr
  induction tr with
  | nil => intro a b _ hb _; simp at hb
  | cons x rest ih =>
    intro a b hne hb hlt
    by_cases hpx : p x = true
    · rw [List.filter_cons_of_pos hpx] at hb hlt
      by_cases hax : a = x
      · subst hax
        rw [ev_indexOf_cons_self, ev_indexOf_cons_ne rest (fun he => hne he.symm)]
        omega
      · by_cases hbx : b = x
        · subst hbx
          rw [ev_indexOf_cons_self] at hlt
          omega
        · rw [ev_indexOf_cons_ne (rest.filter p) hax,
            ev_indexOf_cons_ne (rest.filter p) hbx] at hlt
          rw [ev_indexOf_cons_ne rest hax, ev_indexOf_cons_ne rest hbx]
          have hbmem : b ∈ rest.filter p := by
            rcases List.mem_cons.mp hb with h | h
            · exact absurd h hbx
            · exact h
          have := ih a b hne hbmem (by omega)
          omega
    · have hfe : List.filter p (x :: rest) = List.filter p rest :=
        List.filter_cons_of_neg (by simpa using hpx)
      rw [hfe] at hb hlt
      by_cases hax : a = x
      · subst hax
        rw [ev_indexOf_cons_self]
        have hbx : ¬ (b = a) := fun he =>
          hpx (he ▸ (List.mem_filter.mp hb).2)
        rw [ev_indexOf_cons_ne rest hbx]
        omega
      · by_cases hbx : b = x
        · exact absurd (hbx ▸ (List.mem_filter.mp hb).2) hpx
        · rw [ev_indexOf_cons_ne rest hax, ev_indexOf_cons_ne rest hbx]
          have := ih a b hne hb hlt
          omega

theorem mem_writes {T w i : Nat} (hi : i < T) :
    Ev.write i w ∈ (List.range T).map (fun j => Ev.write j w) :=
  List.mem_map_of_mem _ (List.mem_range.mpr hi)

theorem mem_reads {T w t : Nat} (ht : t < T) :
    Ev.read w t ∈ (List.range T).map (fun u => Ev.read w u) :=
  List.mem_map_of_mem _ (List.mem_range.mpr ht)

theorem read_not_mem_writes {T w i t : Nat} :
    Ev.read i t ∉ (List.range T).map (fun j => Ev.write j w) := by
  intro h
  rcases List.mem_map.mp h with ⟨j, _, he⟩
  cases he

theorem reduce_not_mem_writes {T w v : Nat} :
    Ev.reduceEnd v ∉ (List.range T).map (fun j => Ev.write j w) := by
  intro h
  rcases List.mem_map.mp h with ⟨j, _, he⟩
  cases he

theorem reduce_not_mem_reads {T w v : Nat} :
    Ev.reduceEnd v ∉ (List.range T).map (fun u => Ev.read w u) := by
  intro h
  rcases List.mem_map.mp h with ⟨j, _, he⟩
  cases he

theorem write_mem_program (T w i : Nat) (hi : i < T) :
    Ev.write i w ∈ workerProgram T w := by
  rw [workerProgram]
  exact List.mem_cons_of_mem _ (List.mem_append.mpr (Or.inl (mem_writes hi)))

theorem read_mem_program (T w t : Nat) (ht : t < T) :
    Ev.read w t ∈ workerProgram T w := by
  rw [workerProgram]
  exact List.mem_cons_of_mem _ (List.mem_append.mpr (Or.inr
    (List.mem_append.mpr (Or.inl (mem_reads ht)))))

theorem reduce_mem_program (T w : Nat) : Ev.reduceEnd w ∈ workerProgram T w := by
  rw [workerProgram]
  exact List.mem_cons_of_mem _ (List.mem_append.mpr (Or.inr
    (List.mem_append.mpr (Or.inr (List.mem_singleton.mpr rfl)))))

theorem prog_write_before_read (T w i t : Nat) (hi : i < T) :
    (workerProgram T w).indexOf (Ev.write i w)
      < (workerProgram T w).indexOf (Ev.read w t) := by
  rw [workerProgram, ev_indexOf_cons_ne _ (fun he => Ev.noConfusion he),
    ev_indexOf_cons_ne _ (fun he => Ev.noConfusion he)]
  have h1 : ((List.range T).map (fun j => Ev.write j w)
      ++ ((List.range T).map (fun u => Ev.read w u) ++ [Ev.reduceEnd w])).indexOf (Ev.write i w)
      < ((List.range T).map (fun j => Ev.write j w)
      ++ ((List.range T).map (fun u => Ev.read w u) ++ [Ev.reduceEnd w])).indexOf (Ev.read w t) :=
    indexOf_append_lt (mem_writes hi) read_not_mem_writes
  omega

theorem prog_mapEnd_before_write (T t w : Nat) :
    (workerProgram T t).indexOf (Ev.mapEnd t)
      < (workerProgram T t).indexOf (Ev.write w t) := by
  rw [workerProgram, ev_indexOf_cons_self,
    ev_indexOf_cons_ne _ (fun he => Ev.noConfusion he)]
  omega

theorem prog_read_before_reduce (T w t : Nat) (ht : t < T) :
    (workerProgram T w).indexOf (Ev.read w t)
      < (workerProgram T w).indexOf (Ev.reduceEnd w) := by
  rw [workerProgram, ev_indexOf_cons_ne _ (fun he => Ev.noConfusion he),
    ev_indexOf_cons_ne _ (fun he => Ev.noConfusion he),
    List.indexOf_append_of_not_mem read_not_mem_writes,
    List.indexOf_append_of_not_mem reduce_not_mem_writes]
  have h1 : ((List.range T).map (fun u => Ev.read w u) ++ [Ev.reduceEnd w]).indexOf (Ev.read w t)
      < ((List.range T).map (fun u => Ev.read w u) ++ [Ev.reduceEnd w]).indexOf (Ev.reduceEnd w) :=
    indexOf_append_lt (mem_reads ht) reduce_not_mem_reads
  omega

/-- Lift an order between two events of worker `w`'s program to any valid
trace: the trace restricted to worker `w` is exactly its program. -/
theorem valid_before_of_program {T : Nat} {tr : List Ev} (hv : ValidTrace T tr) {w : Nat}
    (hw : w < T) {a b : Ev} (hne : a ≠ b) (hbmem : b ∈ workerProgram T w)
    (hlt : (workerProgram T w).indexOf a < (workerProgram T w).indexOf b) :
    before tr a b := by
  have hfil := hv.1 w hw
  have h1 : b ∈ tr.filter (fun e => owner e == w) := by rw [hfil]; exact hbmem
  have h2 : (tr.filter (fun e => owner e == w)).indexOf a
      < (tr.filter (fun e => owner e == w)).indexOf b := by rw [hfil]; exact hlt
  exact before_of_filter_before _ tr a b hne h1 h2

/-- C7 (amended): in every valid linearized execution, (1) each worker
performs all `workerCount` of its outgoing handoff writes — including the
write to its own slot — before any of its future reads returns, so a worker
never waits on itself before writing to itself; and (2) although a worker
may begin its reduce phase before all `workerCount²` writes exist, no
worker completes its reduce phase until every worker has finished its map
phase and all `workerCount` writes destined to that worker have occurred. -/
theorem claim7_write_read_order (T : Nat) (tr : List Ev) (hv : ValidTrace T tr) :
    (∀ w i t, w < T → i < T → t < T → before tr (Ev.write i w) (Ev.read w t)) ∧
    (∀ w t, w < T → t < T → before tr (Ev.mapEnd t) (Ev.reduceEnd w)) ∧
    (∀ w t, w < T → t < T → before tr (Ev.write w t) (Ev.reduceEnd w)) := by
  have hpart1 : ∀ w i t, w < T → i < T → t < T → before tr (Ev.write i w) (Ev.read w t) := by
    intro w i t hw hi ht
    exact valid_before_of_program hv hw (fun he => Ev.noConfusion he)
      (read_mem_program T w t ht) (prog_write_before_read T w i t hi)
  have hwr : ∀ w t, w < T → t < T → before tr (Ev.write w t) (Ev.read w t) :=
    fun w t hw ht => hv.2.2 w hw t ht
  have hrr : ∀ w t, w < T → t < T → before tr (Ev.read w t) (Ev.reduceEnd w) := by
    intro w t hw ht
    exact valid_before_of_program hv hw (fun he => Ev.noConfusion he)
      (reduce_mem_program T w) (prog_read_before_reduce T w t ht)
  have hmw : ∀ w t, w < T → t < T → before tr (Ev.mapEnd t) (Ev.write w t) := by
    intro w t hw ht
    exact valid_before_of_program hv ht (fun he => Ev.noConfusion he)
      (write_mem_program T t w hw) (prog_mapEnd_before_write T t w)
  refine ⟨hpart1, ?_, ?_⟩
  · intro w t hw ht
    exact Nat.lt_trans (Nat.lt_trans (hmw w t hw ht) (hwr w t hw ht)) (hrr w t hw ht)
  · intro w t hw ht
    exact Nat.lt_trans (hwr w t hw ht) (hrr w t hw ht)

/-- Witness for C7 (amended) on the concrete valid trace. -/
theorem claim7_write_read_order_witness :
    before raceTrace (Ev.write 0 0) (Ev.read 0 0) :=
  (claim7_write_read_order 2 raceTrace (by decide)).1 0 0 0
    (by decide) (by decide) (by decide)

/-- C7 as stated is false on the code: `raceTrace` is a valid two-worker
execution in which worker 0 begins its reduce phase — its first future read
returns — before worker 1 performs any handoff write, so it is not the
case that all `workerCount²` handoff writes precede the start of every
reduce phase. -/
theorem claim7_counterexample :
    ValidTrace 2 raceTrace ∧ ¬ before raceTrace (Ev.write 0 1) (Ev.read 0 0) := by
  decide

end NgramCounter
